import Mathlib

/-!
Verification of the AVL tree implementation in `src/avl.rs`.

The Rust code is shallowly embedded: the node enum `BSTNode<T>` becomes an
inductive type (with the element type `T` instantiated to `Int`, a totally
ordered type, matching the `T : Ord` bound), cached `i32` heights become `Int`,
the `u32` size counter becomes a `Nat` kept below `2 ^ 32` with wrapping
(release-mode) arithmetic — increment and decrement are taken modulo `2 ^ 32`
— and functions that can reach a `panic!` branch return `Option` (with `none`
modelling the panic).  Each definition mirrors the corresponding Rust function
line by line.
-/

namespace AvlRs

/-- The Rust enum `BSTNode<T>`: either `Nil` or a node carrying owned left and
right children, a cached height (`i32`, embedded as `Int`) and a value. -/
inductive BSTNode : Type where
  | nil : BSTNode
  | node (left : BSTNode) (right : BSTNode) (height : Int) (value : Int) : BSTNode
deriving DecidableEq

/-- Rust `BSTNode::new`: a fresh leaf with height 0. -/
def newNode (v : Int) : BSTNode := .node .nil .nil 0 v

/-- Rust `get_height`: the cached height field, `-1` for `Nil`. -/
def get_height : BSTNode → Int
  | .nil => -1
  | .node _ _ h _ => h

/-- Rust `contains`. -/
def contains : BSTNode → Int → Bool
  | .nil, _ => false
  | .node l r _ v, x =>
    if x = v then true
    else if x > v then contains r x
    else contains l x

/-- Rust `is_imbalanced`: cached child heights differ by more than one
(`abs_diff` on `i32` is exact, embedded via `Int.natAbs`). -/
def is_imbalanced : BSTNode → Bool
  | .nil => false
  | .node l r _ _ => decide ((get_height l - get_height r).natAbs > 1)

/-- Rust `left_heavy` (strict comparison of cached child heights). -/
def left_heavy : BSTNode → Bool
  | .nil => false
  | .node l r _ _ => decide (get_height l > get_height r)

/-- Rust `right_heavy`. -/
def right_heavy : BSTNode → Bool
  | .nil => false
  | .node l r _ _ => decide (get_height r > get_height l)

/-- Rust `update_height`: recompute this node's cached height from the
children's cached heights; no-op on `Nil`. -/
def update_height : BSTNode → BSTNode
  | .nil => .nil
  | .node l r _ v => .node l r (max (get_height l) (get_height r) + 1) v

/-- Rust `rotate_left`.  The Rust code calls `self.get_right().get_left()`,
which panics when `self` or `self.right` is `Nil`; those panics are the `none`
branch.  Otherwise the pivot (right child) is promoted, the old root becomes
its left child adopting the pivot's old left subtree, and the two rebuilt
nodes get their heights recomputed (bottom first, then top). -/
def rotate_left : BSTNode → Option BSTNode
  | .node l (.node rl rr rh rv) h v =>
      some (update_height (.node (update_height (.node l rl h v)) rr rh rv))
  | _ => none

/-- Rust `rotate_right`, mirror of `rotate_left`. -/
def rotate_right : BSTNode → Option BSTNode
  | .node (.node ll lr lh lv) r h v =>
      some (update_height (.node ll (update_height (.node lr r h v)) lh lv))
  | _ => none

/-- Rust `rebalance`: do nothing unless imbalanced; otherwise pick the
rotation case from `left_heavy` / `right_heavy` of the taller child.  Note the
Rust code tests the child with the *strict* `left_heavy` (resp. `right_heavy`)
and in the `else` branch first rotates the child in place, then the node. -/
def rebalance (t : BSTNode) : Option BSTNode :=
  if is_imbalanced t then
    if left_heavy t then
      match t with
      | .nil => none
      | .node l r h v =>
        if left_heavy l then rotate_right (.node l r h v)
        else
          match rotate_left l with
          | none => none
          | some l₂ => rotate_right (.node l₂ r h v)
    else
      match t with
      | .nil => none
      | .node l r h v =>
        if right_heavy r then rotate_left (.node l r h v)
        else
          match rotate_right r with
          | none => none
          | some r₂ => rotate_left (.node l r₂ h v)
  else some t

/-- Rust `insert_balanced`.  Faithful to the source: the result of the
recursive call is *discarded* (the Rust code writes
`right.insert_balanced(new_value);` without using the returned bool), so the
function returns `false` only when the duplicate sits at the current node. -/
def insert_balanced : BSTNode → Int → Option (BSTNode × Bool)
  | .nil, x =>
      match rebalance (newNode x) with
      | none => none
      | some t => some (t, true)
  | .node l r h v, x =>
      if x = v then some (.node l r h v, false)
      else if x > v then
        match insert_balanced r x with
        | none => none
        | some p =>
          match rebalance (update_height (.node l p.1 h v)) with
          | none => none
          | some t => some (t, true)
      else
        match insert_balanced l x with
        | none => none
        | some p =>
          match rebalance (update_height (.node p.1 r h v)) with
          | none => none
          | some t => some (t, true)

/-- Rust `take_smallest_in_subtree`: walk the left spine; when the left child
is `Nil` the current node is detached (its right child takes its place) and
returned; on the way back up every spine node recomputes its height and
rebalances.  The panic on an empty subtree is the `none` branch.  The returned
node keeps its stale height field, exactly like the Rust `take`n box. -/
def take_smallest_in_subtree : BSTNode → Option (BSTNode × BSTNode)
  | .nil => none
  | .node .nil r h v => some (.node .nil .nil h v, r)
  | .node (.node la lb lc ld) r h v =>
      match take_smallest_in_subtree (.node la lb lc ld) with
      | none => none
      | some p =>
        match rebalance (update_height (.node p.2 r h v)) with
        | none => none
        | some t => some (p.1, t)

/-- Rust `delete_balanced`.  The three structural cases mirror the
`(has_left, has_right)` match; in the two-children case the in-order successor
is extracted from the right subtree and its value overwrites the current
node's value (the Rust `if let` silently keeps the old value when the
extracted node is `Nil`, which is mirrored here).  Height update and rebalance
run only when something was deleted, as in the source. -/
def delete_balanced : BSTNode → Int → Option (BSTNode × Bool)
  | .nil, _ => some (.nil, false)
  | .node l r h v, x =>
      if x < v then
        match delete_balanced l x with
        | none => none
        | some p =>
          if p.2 then
            match rebalance (update_height (.node p.1 r h v)) with
            | none => none
            | some t => some (t, true)
          else some (.node p.1 r h v, false)
      else if x > v then
        match delete_balanced r x with
        | none => none
        | some p =>
          if p.2 then
            match rebalance (update_height (.node l p.1 h v)) with
            | none => none
            | some t => some (t, true)
          else some (.node l p.1 h v, false)
      else
        match l, r with
        | .nil, .nil =>
          match rebalance (update_height .nil) with
          | none => none
          | some t => some (t, true)
        | .nil, .node ra rb rc rd =>
          match rebalance (update_height (.node ra rb rc rd)) with
          | none => none
          | some t => some (t, true)
        | .node la lb lc ld, .nil =>
          match rebalance (update_height (.node la lb lc ld)) with
          | none => none
          | some t => some (t, true)
        | .node la lb lc ld, .node ra rb rc rd =>
          match take_smallest_in_subtree (.node ra rb rc rd) with
          | none => none
          | some p =>
            match rebalance (update_height (.node (.node la lb lc ld) p.2 h
                (match p.1 with
                 | .node _ _ _ sv => sv
                 | .nil => v))) with
            | none => none
            | some t => some (t, true)

/-- The modulus of the `u32` type of the size field. -/
def u32Mod : Nat := 2 ^ 32

/-- The Rust struct `BST<T>`: root node plus a `u32` size counter, embedded as
a `Nat` that the operations keep below `u32Mod` by wrapping. -/
structure BST : Type where
  root : BSTNode
  size : Nat
deriving DecidableEq

/-- Rust `BST::new`. -/
def BST.new : BST := ⟨.nil, 0⟩

/-- Rust `BST::contains`. -/
def BST.contains (b : BST) (x : Int) : Bool := AvlRs.contains b.root x

/-- Rust `BST::insert`: increments `size` exactly when `insert_balanced`
reported `true`.  The Rust `self.size += 1` is `u32` arithmetic, which wraps
around in release builds; it is embedded as addition modulo `2 ^ 32`. -/
def BST.insert (b : BST) (x : Int) : Option (BST × Bool) :=
  match insert_balanced b.root x with
  | none => none
  | some p => some (⟨p.1, if p.2 then (b.size + 1) % u32Mod else b.size⟩, p.2)

/-- Rust `BST::delete`: decrements `size` exactly when `delete_balanced`
reported `true`.  The Rust `self.size -= 1` is `u32` arithmetic, which wraps
around in release builds; on values below `2 ^ 32` the wrapping decrement is
addition of `2 ^ 32 - 1` modulo `2 ^ 32`. -/
def BST.delete (b : BST) (x : Int) : Option (BST × Bool) :=
  match delete_balanced b.root x with
  | none => none
  | some p =>
    some (⟨p.1, if p.2 then (b.size + (u32Mod - 1)) % u32Mod else b.size⟩, p.2)

/-- A public operation of the API: insert or delete of a value. -/
inductive Op : Type where
  | ins (x : Int) : Op
  | del (x : Int) : Op
deriving DecidableEq

/-- Run one public operation, keeping the resulting tree. -/
def runOp (b : BST) : Op → Option BST
  | .ins x =>
    match BST.insert b x with
    | none => none
    | some p => some p.1
  | .del x =>
    match BST.delete b x with
    | none => none
    | some p => some p.1

/-- Run a sequence of public operations. -/
def runOps : BST → List Op → Option BST
  | b, [] => some b
  | b, op :: ops =>
    match runOp b op with
    | none => none
    | some b₂ => runOps b₂ ops

/-! ### Specification-side definitions -/

/-- The recursively defined (true) height of a subtree: `-1` for an absent
child, `0` for a leaf. -/
def realHeight : BSTNode → Int
  | .nil => -1
  | .node l r _ _ => max (realHeight l) (realHeight r) + 1

/-- Every cached height field equals the recursively defined height. -/
def heights_ok : BSTNode → Bool
  | .nil => true
  | .node l r h _ =>
      heights_ok l && heights_ok r && decide (h = max (realHeight l) (realHeight r) + 1)

/-- The AVL balance condition on true heights: at every node the subtree
heights differ by at most one. -/
def balancedTree : BSTNode → Bool
  | .nil => true
  | .node l r _ _ =>
      balancedTree l && balancedTree r && decide ((realHeight l - realHeight r).natAbs ≤ 1)

/-- In-order traversal of the stored values. -/
def keys : BSTNode → List Int
  | .nil => []
  | .node l r _ v => keys l ++ v :: keys r

/-- Number of nodes reachable from this subtree. -/
def nodeCount : BSTNode → Nat
  | .nil => 0
  | .node l r _ _ => nodeCount l + nodeCount r + 1

/-- A predicate holds of every value stored in the subtree. -/
def all_keys (p : Int → Bool) : BSTNode → Bool
  | .nil => true
  | .node l r _ v => p v && all_keys p l && all_keys p r

/-- Node-wise binary-search-tree order: at every node, all values of the left
subtree are smaller and all values of the right subtree are larger. -/
def bst_ordered : BSTNode → Bool
  | .nil => true
  | .node l r _ v =>
      all_keys (fun y => decide (y < v)) l && all_keys (fun y => decide (v < y)) r &&
        bst_ordered l && bst_ordered r

/-- Reference membership semantics of an operation sequence: a value is a
member after the sequence iff it was inserted and not subsequently deleted. -/
def specMember : (Int → Bool) → List Op → Int → Bool
  | m, [], x => m x
  | m, .ins y :: ops, x => specMember (fun z => if z = y then true else m z) ops x
  | m, .del y :: ops, x => specMember (fun z => if z = y then false else m z) ops x

/-! ### Basic lemmas about the specification-side functions -/

lemma realHeight_ge (t : BSTNode) : -1 ≤ realHeight t := by
  induction t with
  | nil => simp [realHeight]
  | node l r h v ihl ihr =>
    have h1 := le_max_left (realHeight l) (realHeight r)
    simp only [realHeight]
    omega

lemma ne_nil_of_realHeight (t : BSTNode) (h : 0 ≤ realHeight t) :
    ∃ a b c d, t = .node a b c d := by
  cases t with
  | nil => simp [realHeight] at h
  | node a b c d => exact ⟨a, b, c, d, rfl⟩

lemma keys_update_height (t : BSTNode) : keys (update_height t) = keys t := by
  cases t <;> rfl

lemma realHeight_update_height (t : BSTNode) :
    realHeight (update_height t) = realHeight t := by
  cases t <;> rfl

lemma get_height_eq (t : BSTNode) (h : heights_ok t = true) :
    get_height t = realHeight t := by
  cases t with
  | nil => rfl
  | node l r hh v =>
    simp only [heights_ok, Bool.and_eq_true, decide_eq_true_eq] at h
    simp [get_height, realHeight, h.2]

lemma left_heavy_node (l r : BSTNode) (h v : Int) :
    left_heavy (.node l r h v) = true ↔ get_height r < get_height l := by
  simp [left_heavy]

lemma right_heavy_node (l r : BSTNode) (h v : Int) :
    right_heavy (.node l r h v) = true ↔ get_height l < get_height r := by
  simp [right_heavy]

lemma heights_ok_mk (l r : BSTNode) (h v : Int)
    (hl : heights_ok l = true) (hr : heights_ok r = true) :
    heights_ok (update_height (.node l r h v)) = true := by
  simp [update_height, heights_ok, hl, hr, get_height_eq l hl, get_height_eq r hr]

lemma all_keys_iff (p : Int → Bool) (t : BSTNode) :
    all_keys p t = true ↔ ∀ y ∈ keys t, p y = true := by
  induction t with
  | nil => simp [all_keys, keys]
  | node l r h v ihl ihr =>
    simp only [all_keys, keys, Bool.and_eq_true, ihl, ihr, List.mem_append,
      List.mem_cons]
    constructor
    · rintro ⟨⟨hv, hl⟩, hr⟩ y (hy | hy | hy)
      · exact hl y hy
      · exact hy ▸ hv
      · exact hr y hy
    · intro h
      exact ⟨⟨h v (Or.inr (Or.inl rfl)), fun y hy => h y (Or.inl hy)⟩,
        fun y hy => h y (Or.inr (Or.inr hy))⟩

lemma bst_ordered_iff (t : BSTNode) :
    bst_ordered t = true ↔ (keys t).Pairwise (· < ·) := by
  induction t with
  | nil => simp [bst_ordered, keys]
  | node l r h v ihl ihr =>
    simp only [bst_ordered, Bool.and_eq_true, keys, List.pairwise_append,
      List.pairwise_cons, all_keys_iff, ihl, ihr, decide_eq_true_eq,
      List.mem_cons]
    constructor
    · rintro ⟨⟨⟨hlv, hvr⟩, hpl⟩, hpr⟩
      refine ⟨hpl, ⟨hvr, hpr⟩, ?_⟩
      rintro a ha b (rfl | hb)
      · exact hlv a ha
      · exact lt_trans (hlv a ha) (hvr b hb)
    · rintro ⟨hpl, ⟨hvr, hpr⟩, hcross⟩
      exact ⟨⟨⟨fun a ha => hcross a ha v (Or.inl rfl), hvr⟩, hpl⟩, hpr⟩

lemma nodeCount_eq_length (t : BSTNode) : nodeCount t = (keys t).length := by
  induction t with
  | nil => rfl
  | node l r h v ihl ihr => simp [nodeCount, keys, ihl, ihr]; omega

/-! ### Rotations preserve heights and the in-order sequence -/

lemma rotate_right_spec (ll lr : BSTNode) (lh lv : Int) (r : BSTNode) (h v : Int)
    (h1 : heights_ok ll = true) (h2 : heights_ok lr = true)
    (h3 : heights_ok r = true) :
    ∃ t₂, rotate_right (.node (.node ll lr lh lv) r h v) = some t₂ ∧
      heights_ok t₂ = true ∧ keys t₂ = keys (.node (.node ll lr lh lv) r h v) := by
  refine ⟨_, rfl, heights_ok_mk _ _ _ _ h1 (heights_ok_mk _ _ _ _ h2 h3), ?_⟩
  simp [keys_update_height, keys]

lemma rotate_left_spec (l rl rr : BSTNode) (rh rv : Int) (h v : Int)
    (h1 : heights_ok l = true) (h2 : heights_ok rl = true)
    (h3 : heights_ok rr = true) :
    ∃ t₂, rotate_left (.node l (.node rl rr rh rv) h v) = some t₂ ∧
      heights_ok t₂ = true ∧ keys t₂ = keys (.node l (.node rl rr rh rv) h v) := by
  refine ⟨_, rfl, heights_ok_mk _ _ _ _ (heights_ok_mk _ _ _ _ h1 h2) h3, ?_⟩
  simp [keys_update_height, keys]

/-- `rebalance` never hits a panic branch on a tree with correct cached
heights, keeps the heights correct, and preserves the in-order sequence. -/
lemma rebalance_spec (t : BSTNode) (hh : heights_ok t = true) :
    ∃ t₂, rebalance t = some t₂ ∧ heights_ok t₂ = true ∧ keys t₂ = keys t := by
  unfold rebalance
  by_cases him : is_imbalanced t = true
  case neg =>
    rw [if_neg him]
    exact ⟨t, rfl, hh, rfl⟩
  case pos =>
    rw [if_pos him]
    cases t with
    | nil => simp [is_imbalanced] at him
    | node l r h v =>
      have hparts := hh
      simp only [heights_ok, Bool.and_eq_true, decide_eq_true_eq] at hparts
      obtain ⟨⟨hl, hr⟩, hhv⟩ := hparts
      have himv : ((realHeight l - realHeight r).natAbs > 1) := by
        have h1 := him
        simp only [is_imbalanced, decide_eq_true_eq] at h1
        rwa [get_height_eq l hl, get_height_eq r hr] at h1
      have hrge := realHeight_ge r
      have hlge := realHeight_ge l
      by_cases hlh : left_heavy (.node l r h v) = true
      · rw [if_pos hlh]
        have hlhv : realHeight l > realHeight r := by
          have h1 := hlh
          rw [left_heavy_node, get_height_eq l hl, get_height_eq r hr] at h1
          omega
        have hlpos : 0 ≤ realHeight l := by omega
        obtain ⟨ll, lr', llh, llv, rfl⟩ := ne_nil_of_realHeight l hlpos
        have hlparts := hl
        simp only [heights_ok, Bool.and_eq_true, decide_eq_true_eq] at hlparts
        obtain ⟨⟨hll, hlr⟩, hllh_cache⟩ := hlparts
        dsimp only
        by_cases hllh : left_heavy (.node ll lr' llh llv) = true
        · rw [if_pos hllh]
          exact rotate_right_spec ll lr' llh llv r h v hll hlr hr
        · rw [if_neg hllh]
          have hllv : realHeight ll ≤ realHeight lr' := by
            rw [left_heavy_node, get_height_eq ll hll, get_height_eq lr' hlr] at hllh
            omega
          have hmax := le_max_left (realHeight ll) (realHeight lr')
          have hmax2 := le_max_right (realHeight ll) (realHeight lr')
          have hmax3 : max (realHeight ll) (realHeight lr') ≤ realHeight lr' :=
            max_le hllv le_rfl
          have hllge := realHeight_ge ll
          have hlrpos : 0 ≤ realHeight lr' := by
            simp only [realHeight] at himv hlhv
            omega
          obtain ⟨a, b, c, d, rfl⟩ := ne_nil_of_realHeight lr' hlrpos
          simp only [heights_ok, Bool.and_eq_true, decide_eq_true_eq] at hlr
          obtain ⟨⟨ha, hb⟩, hcd⟩ := hlr
          have hrl : rotate_left (.node ll (.node a b c d) llh llv) =
              some (update_height (.node (update_height (.node ll a llh llv)) b c d)) := rfl
          rw [hrl]
          have hinner : heights_ok (update_height (.node ll a llh llv)) = true :=
            heights_ok_mk _ _ _ _ hll ha
          have hspec := rotate_right_spec (update_height (.node ll a llh llv)) b
            (max (get_height (update_height (.node ll a llh llv))) (get_height b) + 1) d
            r h v hinner hb hr
          simp only [update_height, get_height] at hspec ⊢
          obtain ⟨t₂, heq, hok, hkeys⟩ := hspec
          refine ⟨t₂, heq, hok, ?_⟩
          rw [hkeys]
          simp [keys]
      · rw [if_neg hlh]
        have hlhv : realHeight l ≤ realHeight r := by
          rw [left_heavy_node, get_height_eq l hl, get_height_eq r hr] at hlh
          omega
        have hrpos : 0 ≤ realHeight r := by omega
        obtain ⟨a, b, c, d, rfl⟩ := ne_nil_of_realHeight r hrpos
        have hrparts := hr
        simp only [heights_ok, Bool.and_eq_true, decide_eq_true_eq] at hrparts
        obtain ⟨⟨ha, hb⟩, hcd⟩ := hrparts
        dsimp only
        by_cases hrrh : right_heavy (.node a b c d) = true
        · rw [if_pos hrrh]
          exact rotate_left_spec l a b c d h v hl ha hb
        · rw [if_neg hrrh]
          have hrrv : realHeight b ≤ realHeight a := by
            rw [right_heavy_node, get_height_eq a ha, get_height_eq b hb] at hrrh
            omega
          have hmax := le_max_left (realHeight a) (realHeight b)
          have hmax2 := le_max_right (realHeight a) (realHeight b)
          have hmax3 : max (realHeight a) (realHeight b) ≤ realHeight a :=
            max_le le_rfl hrrv
          have hbge := realHeight_ge b
          have hapos : 0 ≤ realHeight a := by
            simp only [realHeight] at himv hlhv
            omega
          obtain ⟨aa, ab, ac, ad, rfl⟩ := ne_nil_of_realHeight a hapos
          simp only [heights_ok, Bool.and_eq_true, decide_eq_true_eq] at ha
          obtain ⟨⟨haa, hab⟩, hacd⟩ := ha
          have hrr : rotate_right (.node (.node aa ab ac ad) b c d) =
              some (update_height (.node aa (update_height (.node ab b c d)) ac ad)) := rfl
          rw [hrr]
          have hinner : heights_ok (update_height (.node ab b c d)) = true :=
            heights_ok_mk _ _ _ _ hab hb
          have hspec := rotate_left_spec l aa
            (update_height (.node ab b c d))
            (max (get_height aa) (get_height (update_height (.node ab b c d))) + 1) ad
            h v hl haa hinner
          simp only [update_height, get_height] at hspec ⊢
          obtain ⟨t₂, heq, hok, hkeys⟩ := hspec
          refine ⟨t₂, heq, hok, ?_⟩
          rw [hkeys]
          simp [keys]

/-- `take_smallest_in_subtree` on a non-empty subtree with correct cached
heights succeeds, returns the leftmost (smallest) node detached from the
subtree, and the remaining subtree's in-order sequence is the old one without
its head. -/
lemma take_smallest_spec (t : BSTNode) (hne : t ≠ .nil) (hh : heights_ok t = true) :
    ∃ sh sv t₂, take_smallest_in_subtree t = some (.node .nil .nil sh sv, t₂) ∧
      heights_ok t₂ = true ∧ keys t = sv :: keys t₂ := by
  induction t with
  | nil => exact absurd rfl hne
  | node l r h v ihl ihr =>
    have hparts := hh
    simp only [heights_ok, Bool.and_eq_true, decide_eq_true_eq] at hparts
    obtain ⟨⟨hl, hr⟩, hhv⟩ := hparts
    cases l with
    | nil =>
      exact ⟨h, v, r, rfl, hr, by simp [keys]⟩
    | node la lb lc ld =>
      obtain ⟨sh, sv, l₂, heq, hok, hkeys⟩ := ihl (by simp) hl
      have hok₁ : heights_ok (update_height (.node l₂ r h v)) = true :=
        heights_ok_mk _ _ _ _ hok hr
      obtain ⟨t₃, heq₃, hok₃, hkeys₃⟩ := rebalance_spec _ hok₁
      refine ⟨sh, sv, t₃, ?_, hok₃, ?_⟩
      · simp only [take_smallest_in_subtree, heq, heq₃]
      · rw [hkeys₃, keys_update_height]
        have h1 : keys ((BSTNode.node la lb lc ld).node r h v) =
            keys (BSTNode.node la lb lc ld) ++ v :: keys r := rfl
        rw [h1, hkeys]
        simp [keys]

set_option maxHeartbeats 1000000 in
/-- Full specification of `insert_balanced` on a tree with correct cached
heights and strictly increasing in-order sequence: it succeeds, keeps both
properties, adds exactly the new value to the in-order sequence (as a set),
and returns `false` only leaving the tree untouched. -/
lemma insert_spec (x : Int) : ∀ t : BSTNode, heights_ok t = true →
    (keys t).Pairwise (· < ·) →
    ∃ t₂ b, insert_balanced t x = some (t₂, b) ∧ heights_ok t₂ = true ∧
      (keys t₂).Pairwise (· < ·) ∧
      (∀ y, y ∈ keys t₂ ↔ y ∈ keys t ∨ y = x) ∧
      ((keys t₂).length =
        if x ∈ keys t then (keys t).length else (keys t).length + 1) ∧
      (b = false → t₂ = t) := by
  intro t
  induction t with
  | nil =>
    intro _ _
    refine ⟨newNode x, true, ?_, by simp [newNode, heights_ok, realHeight],
      by simp [newNode, keys], by simp [newNode, keys], by simp [newNode, keys],
      by simp⟩
    simp [insert_balanced, rebalance, is_imbalanced, newNode, get_height]
  | node l r h v ihl ihr =>
    intro hh hpw
    have hparts := hh
    simp only [heights_ok, Bool.and_eq_true, decide_eq_true_eq] at hparts
    obtain ⟨⟨hl, hr⟩, hhv⟩ := hparts
    have hpw' := hpw
    simp only [keys, List.pairwise_append, List.pairwise_cons] at hpw'
    obtain ⟨hpwl, ⟨hbr, hpwr⟩, hcr⟩ := hpw'
    have hbl : ∀ a ∈ keys l, a < v := fun a ha => hcr a ha v (List.mem_cons_self v _)
    rcases lt_trichotomy x v with hxv | hxv | hxv
    · -- x < v: recurse into the left subtree
      obtain ⟨l₂, bb, heq, hok₂, hpw₂, hmem₂, hlen₂, _⟩ := ihl hl hpwl
      have hne : ¬ (x = v) := ne_of_lt hxv
      have hngt : ¬ (x > v) := by omega
      have hok₁ : heights_ok (update_height (.node l₂ r h v)) = true :=
        heights_ok_mk _ _ _ _ hok₂ hr
      obtain ⟨t₃, heq₃, hok₃, hkeys₃⟩ := rebalance_spec _ hok₁
      have hkt : keys t₃ = keys l₂ ++ v :: keys r := by
        rw [hkeys₃, keys_update_height]; rfl
      have hxnotv : x ∉ keys r := fun hxr => absurd (hbr x hxr) (by omega)
      refine ⟨t₃, true, ?_, hok₃, ?_, ?_, ?_, by simp⟩
      · simp only [insert_balanced, if_neg hne, if_neg hngt, heq, heq₃]
      · rw [hkt]
        rw [List.pairwise_append]
        refine ⟨hpw₂, List.pairwise_cons.2 ⟨hbr, hpwr⟩, ?_⟩
        intro a ha b hb
        rcases (hmem₂ a).1 ha with hal | rfl
        · exact hcr a hal b hb
        · rcases List.mem_cons.1 hb with rfl | hbr'
          · exact hxv
          · exact lt_trans hxv (hbr b hbr')
      · intro y
        rw [hkt]
        simp only [keys, List.mem_append, List.mem_cons, hmem₂]
        tauto
      · rw [hkt]
        have hxiff : x ∈ keys (BSTNode.node l r h v) ↔ x ∈ keys l := by
          simp only [keys, List.mem_append, List.mem_cons]
          constructor
          · rintro (hx | rfl | hx)
            · exact hx
            · exact absurd rfl hne
            · exact absurd hx hxnotv
          · exact fun hx => Or.inl hx
        by_cases hxin : x ∈ keys l
        · rw [if_pos (hxiff.2 hxin)]
          rw [if_pos hxin] at hlen₂
          simp [keys, hlen₂]
        · rw [if_neg (fun hc => hxin (hxiff.1 hc))]
          rw [if_neg hxin] at hlen₂
          simp [keys, hlen₂]
          omega
    · -- duplicate at this node: early return, no mutation
      subst hxv
      refine ⟨.node l r h x, false, by simp [insert_balanced], hh, hpw, ?_, ?_,
        fun _ => rfl⟩
      · intro y
        simp only [keys, List.mem_append, List.mem_cons]
        tauto
      · rw [if_pos (by simp [keys] : x ∈ keys (BSTNode.node l r h x))]
    · -- x > v: recurse into the right subtree
      obtain ⟨r₂, bb, heq, hok₂, hpw₂, hmem₂, hlen₂, _⟩ := ihr hr hpwr
      have hne : ¬ (x = v) := by omega
      have hgt : x > v := hxv
      have hok₁ : heights_ok (update_height (.node l r₂ h v)) = true :=
        heights_ok_mk _ _ _ _ hl hok₂
      obtain ⟨t₃, heq₃, hok₃, hkeys₃⟩ := rebalance_spec _ hok₁
      have hkt : keys t₃ = keys l ++ v :: keys r₂ := by
        rw [hkeys₃, keys_update_height]; rfl
      have hxnotl : x ∉ keys l := fun hxl => absurd (hbl x hxl) (by omega)
      refine ⟨t₃, true, ?_, hok₃, ?_, ?_, ?_, by simp⟩
      · simp only [insert_balanced, if_neg hne, if_pos hgt, heq, heq₃]
      · rw [hkt]
        rw [List.pairwise_append]
        refine ⟨hpwl, ?_, ?_⟩
        · refine List.pairwise_cons.2 ⟨?_, hpw₂⟩
          intro b hb
          rcases (hmem₂ b).1 hb with hbr' | rfl
          · exact hbr b hbr'
          · exact hxv
        · intro a ha b hb
          rcases List.mem_cons.1 hb with rfl | hb'
          · exact hbl a ha
          · rcases (hmem₂ b).1 hb' with hbr' | rfl
            · exact hcr a ha b (List.mem_cons_of_mem v hbr')
            · exact lt_trans (hbl a ha) hxv
      · intro y
        rw [hkt]
        simp only [keys, List.mem_append, List.mem_cons, hmem₂]
        tauto
      · rw [hkt]
        have hxiff : x ∈ keys (BSTNode.node l r h v) ↔ x ∈ keys r := by
          simp only [keys, List.mem_append, List.mem_cons]
          constructor
          · rintro (hx | rfl | hx)
            · exact absurd hx hxnotl
            · exact absurd rfl hne
            · exact hx
          · exact fun hx => Or.inr (Or.inr hx)
        by_cases hxin : x ∈ keys r
        · rw [if_pos (hxiff.2 hxin)]
          rw [if_pos hxin] at hlen₂
          simp [keys, hlen₂]
        · rw [if_neg (fun hc => hxin (hxiff.1 hc))]
          rw [if_neg hxin] at hlen₂
          simp [keys, hlen₂]
          omega

set_option maxHeartbeats 2000000 in
/-- Full specification of `delete_balanced` on a tree with correct cached
heights and strictly increasing in-order sequence: it succeeds, keeps both
properties, removes exactly the requested value from the in-order sequence,
reports `true` exactly when the value was present, and reports `false` only
leaving the tree untouched. -/
lemma delete_spec (x : Int) : ∀ t : BSTNode, heights_ok t = true →
    (keys t).Pairwise (· < ·) →
    ∃ t₂ b, delete_balanced t x = some (t₂, b) ∧ heights_ok t₂ = true ∧
      (keys t₂).Pairwise (· < ·) ∧
      (∀ y, y ∈ keys t₂ ↔ y ∈ keys t ∧ y ≠ x) ∧
      ((keys t₂).length =
        if x ∈ keys t then (keys t).length - 1 else (keys t).length) ∧
      (b = true ↔ x ∈ keys t) ∧
      (b = false → t₂ = t) := by
  intro t
  induction t with
  | nil =>
    intro _ _
    exact ⟨.nil, false, rfl, rfl, by simp [keys], by simp [keys], by simp [keys],
      by simp [keys], fun _ => rfl⟩
  | node l r h v ihl ihr =>
    intro hh hpw
    have hparts := hh
    simp only [heights_ok, Bool.and_eq_true, decide_eq_true_eq] at hparts
    obtain ⟨⟨hl, hr⟩, hhv⟩ := hparts
    have hpw' := hpw
    simp only [keys, List.pairwise_append, List.pairwise_cons] at hpw'
    obtain ⟨hpwl, ⟨hbr, hpwr⟩, hcr⟩ := hpw'
    have hbl : ∀ a ∈ keys l, a < v := fun a ha => hcr a ha v (List.mem_cons_self v _)
    rcases lt_trichotomy x v with hxv | hxv | hxv
    · -- x < v: recurse into the left subtree
      obtain ⟨l₂, bb, heq, hok₂, hpw₂, hmem₂, hlen₂, hbiff₂, hnoop₂⟩ := ihl hl hpwl
      have hxiff : x ∈ keys (BSTNode.node l r h v) ↔ x ∈ keys l := by
        simp only [keys, List.mem_append, List.mem_cons]
        constructor
        · rintro (hx | rfl | hx)
          · exact hx
          · exact absurd hxv (lt_irrefl x)
          · exact absurd (hbr x hx) (by omega)
        · exact fun hx => Or.inl hx
      cases bb with
      | true =>
        have hxin : x ∈ keys l := hbiff₂.1 rfl
        have hok₁ : heights_ok (update_height (.node l₂ r h v)) = true :=
          heights_ok_mk _ _ _ _ hok₂ hr
        obtain ⟨t₃, heq₃, hok₃, hkeys₃⟩ := rebalance_spec _ hok₁
        have hkt : keys t₃ = keys l₂ ++ v :: keys r := by
          rw [hkeys₃, keys_update_height]; rfl
        refine ⟨t₃, true, ?_, hok₃, ?_, ?_, ?_, ?_, by simp⟩
        · simp only [delete_balanced, if_pos hxv, heq, heq₃, if_true]
        · rw [hkt, List.pairwise_append]
          refine ⟨hpw₂, List.pairwise_cons.2 ⟨hbr, hpwr⟩, ?_⟩
          intro a ha b hb
          exact hcr a ((hmem₂ a).1 ha).1 b hb
        · intro y
          rw [hkt]
          simp only [keys, List.mem_append, List.mem_cons, hmem₂]
          constructor
          · rintro (⟨hy, hyx⟩ | rfl | hy)
            · exact ⟨Or.inl hy, hyx⟩
            · exact ⟨Or.inr (Or.inl rfl), by omega⟩
            · exact ⟨Or.inr (Or.inr hy), by have := hbr y hy; omega⟩
          · rintro ⟨hy | rfl | hy, hyx⟩
            · exact Or.inl ⟨hy, hyx⟩
            · exact Or.inr (Or.inl rfl)
            · exact Or.inr (Or.inr hy)
        · rw [hkt, if_pos (hxiff.2 hxin)]
          rw [if_pos hxin] at hlen₂
          have hlpos : 0 < (keys l).length :=
            List.length_pos.2 (List.ne_nil_of_mem hxin)
          simp only [keys, List.length_append, List.length_cons, hlen₂]
          omega
        · exact ⟨fun _ => hxiff.2 hxin, fun _ => rfl⟩
      | false =>
        have hleq : l₂ = l := hnoop₂ rfl
        have hxout : x ∉ keys l := fun hc => by simpa using hbiff₂.2 hc
        have hxout' : x ∉ keys (BSTNode.node l r h v) := fun hc => hxout (hxiff.1 hc)
        refine ⟨.node l r h v, false, ?_, hh, hpw, ?_, ?_, ?_, fun _ => rfl⟩
        · simp only [delete_balanced, if_pos hxv, heq, Bool.false_eq_true,
            if_false, hleq]
        · intro y
          constructor
          · intro hy
            refine ⟨hy, ?_⟩
            rintro rfl
            exact hxout' hy
          · exact fun hy => hy.1
        · rw [if_neg hxout']
        · simp only [Bool.false_eq_true, false_iff]
          exact hxout'
    · -- x = v: this very node is deleted
      subst hxv
      have hnlt : ¬ (x < x) := lt_irrefl x
      have hngt : ¬ (x > x) := lt_irrefl x
      cases l with
      | nil =>
        cases r with
        | nil =>
          refine ⟨.nil, true, ?_, rfl, by simp [keys], ?_, ?_, ?_, by simp⟩
          · simp only [delete_balanced, if_neg hnlt, if_neg hngt]
            rfl
          · intro y
            simp [keys]
          · simp [keys]
          · simp [keys]
        | node ra rb rc rd =>
          have hok₁ : heights_ok (update_height (.node ra rb rc rd)) = true := by
            have hrp := hr
            simp only [heights_ok, Bool.and_eq_true, decide_eq_true_eq] at hrp
            exact heights_ok_mk _ _ _ _ hrp.1.1 hrp.1.2
          obtain ⟨t₃, heq₃, hok₃, hkeys₃⟩ := rebalance_spec _ hok₁
          have hkt : keys t₃ = keys (BSTNode.node ra rb rc rd) := by
            rw [hkeys₃, keys_update_height]
          refine ⟨t₃, true, ?_, hok₃, ?_, ?_, ?_, ?_, by simp⟩
          · simp only [delete_balanced, if_neg hnlt, if_neg hngt, heq₃]
          · rw [hkt]; exact hpwr
          · intro y
            rw [hkt]
            simp only [keys, List.nil_append, List.mem_cons]
            constructor
            · intro hy
              exact ⟨Or.inr hy, by have := hbr y hy; omega⟩
            · rintro ⟨rfl | hy, hyx⟩
              · exact absurd rfl hyx
              · exact hy
          · rw [hkt, if_pos (by simp [keys] : x ∈ keys (BSTNode.node BSTNode.nil (BSTNode.node ra rb rc rd) h x))]
            simp [keys]
          · refine ⟨fun _ => by simp [keys], fun _ => rfl⟩
      | node la lb lc ld =>
        cases r with
        | nil =>
          have hok₁ : heights_ok (update_height (.node la lb lc ld)) = true := by
            have hlp := hl
            simp only [heights_ok, Bool.and_eq_true, decide_eq_true_eq] at hlp
            exact heights_ok_mk _ _ _ _ hlp.1.1 hlp.1.2
          obtain ⟨t₃, heq₃, hok₃, hkeys₃⟩ := rebalance_spec _ hok₁
          have hkt : keys t₃ = keys (BSTNode.node la lb lc ld) := by
            rw [hkeys₃, keys_update_height]
          refine ⟨t₃, true, ?_, hok₃, ?_, ?_, ?_, ?_, by simp⟩
          · simp only [delete_balanced, if_neg hnlt, if_neg hngt, heq₃]
          · rw [hkt]; exact hpwl
          · intro y
            have hklen2 : keys (BSTNode.node (BSTNode.node la lb lc ld)
                BSTNode.nil h x) = keys (BSTNode.node la lb lc ld) ++ x :: [] := rfl
            rw [hkt, hklen2]
            simp only [List.mem_append, List.mem_cons, List.not_mem_nil, or_false]
            constructor
            · intro hy
              exact ⟨Or.inl hy, by have := hbl y hy; omega⟩
            · rintro ⟨hy | rfl, hyx⟩
              · exact hy
              · exact absurd rfl hyx
          · rw [hkt, if_pos (by simp [keys] : x ∈ keys (BSTNode.node (BSTNode.node la lb lc ld) BSTNode.nil h x))]
            simp [keys]
          · refine ⟨fun _ => by simp [keys], fun _ => rfl⟩
        | node ra rb rc rd =>
          have hrne : (BSTNode.node ra rb rc rd) ≠ BSTNode.nil := by simp
          obtain ⟨sh, sv, r₂, heqs, hokr₂, hkeysr⟩ := take_smallest_spec _ hrne hr
          have hok₁ : heights_ok
              (update_height (.node (.node la lb lc ld) r₂ h sv)) = true :=
            heights_ok_mk _ _ _ _ hl hokr₂
          obtain ⟨t₃, heq₃, hok₃, hkeys₃⟩ := rebalance_spec _ hok₁
          have hkt : keys t₃ = keys (BSTNode.node la lb lc ld) ++ sv :: keys r₂ := by
            rw [hkeys₃, keys_update_height]; rfl
          have hsvmem : sv ∈ keys (BSTNode.node ra rb rc rd) := by
            rw [hkeysr]; exact List.mem_cons_self _ _
          have hvsv : x < sv := hbr sv hsvmem
          have hpwr' := hpwr
          rw [hkeysr] at hpwr'
          have hsvlt : ∀ y ∈ keys r₂, sv < y := (List.pairwise_cons.1 hpwr').1
          have hpwr₂ : (keys r₂).Pairwise (· < ·) := (List.pairwise_cons.1 hpwr').2
          have hklen : keys (BSTNode.node (BSTNode.node la lb lc ld)
              (BSTNode.node ra rb rc rd) h x) =
              keys (BSTNode.node la lb lc ld) ++ x :: sv :: keys r₂ := by
            have h1 : keys (BSTNode.node (BSTNode.node la lb lc ld)
                (BSTNode.node ra rb rc rd) h x) =
                keys (BSTNode.node la lb lc ld) ++ x :: keys (BSTNode.node ra rb rc rd) := rfl
            rw [h1, hkeysr]
          have hxmem : x ∈ keys (BSTNode.node (BSTNode.node la lb lc ld)
              (BSTNode.node ra rb rc rd) h x) := by
            rw [hklen]
            exact List.mem_append_right _ (List.mem_cons_self _ _)
          refine ⟨t₃, true, ?_, hok₃, ?_, ?_, ?_, ?_, by simp⟩
          · simp only [delete_balanced, if_neg hnlt, if_neg hngt, heqs, heq₃]
          · rw [hkt, List.pairwise_append]
            refine ⟨hpwl, List.pairwise_cons.2 ⟨hsvlt, hpwr₂⟩, ?_⟩
            intro a ha b hb
            rcases List.mem_cons.1 hb with rfl | hb'
            · exact lt_trans (hbl a ha) hvsv
            · have hbmem : b ∈ keys (BSTNode.node ra rb rc rd) := by
                rw [hkeysr]; exact List.mem_cons_of_mem _ hb'
              exact hcr a ha b (List.mem_cons_of_mem x hbmem)
          · intro y
            rw [hkt, hklen]
            simp only [List.mem_append, List.mem_cons]
            constructor
            · rintro (hy | rfl | hy)
              · exact ⟨Or.inl hy, by have := hbl y hy; omega⟩
              · exact ⟨Or.inr (Or.inr (Or.inl rfl)), by omega⟩
              · exact ⟨Or.inr (Or.inr (Or.inr hy)), by have := hsvlt y hy; omega⟩
            · rintro ⟨hy | rfl | rfl | hy, hyx⟩
              · exact Or.inl hy
              · exact absurd rfl hyx
              · exact Or.inr (Or.inl rfl)
              · exact Or.inr (Or.inr hy)
          · rw [hkt, if_pos hxmem, hklen]
            simp only [List.length_append, List.length_cons]
            omega
          · exact ⟨fun _ => hxmem, fun _ => rfl⟩
    · -- x > v: recurse into the right subtree
      obtain ⟨r₂, bb, heq, hok₂, hpw₂, hmem₂, hlen₂, hbiff₂, hnoop₂⟩ := ihr hr hpwr
      have hnlt : ¬ (x < v) := by omega
      have hgt : x > v := hxv
      have hxiff : x ∈ keys (BSTNode.node l r h v) ↔ x ∈ keys r := by
        simp only [keys, List.mem_append, List.mem_cons]
        constructor
        · rintro (hx | rfl | hx)
          · exact absurd (hbl x hx) (by omega)
          · exact absurd hxv (lt_irrefl x)
          · exact hx
        · exact fun hx => Or.inr (Or.inr hx)
      cases bb with
      | true =>
        have hxin : x ∈ keys r := hbiff₂.1 rfl
        have hok₁ : heights_ok (update_height (.node l r₂ h v)) = true :=
          heights_ok_mk _ _ _ _ hl hok₂
        obtain ⟨t₃, heq₃, hok₃, hkeys₃⟩ := rebalance_spec _ hok₁
        have hkt : keys t₃ = keys l ++ v :: keys r₂ := by
          rw [hkeys₃, keys_update_height]; rfl
        refine ⟨t₃, true, ?_, hok₃, ?_, ?_, ?_, ?_, by simp⟩
        · simp only [delete_balanced, if_neg hnlt, if_pos hgt, heq, heq₃, if_true]
        · rw [hkt, List.pairwise_append]
          refine ⟨hpwl, List.pairwise_cons.2 ⟨fun b hb => hbr b ((hmem₂ b).1 hb).1, ?_⟩, ?_⟩
          · exact hpw₂
          · intro a ha b hb
            rcases List.mem_cons.1 hb with rfl | hb'
            · exact hbl a ha
            · exact hcr a ha b (List.mem_cons_of_mem v ((hmem₂ b).1 hb').1)
        · intro y
          rw [hkt]
          simp only [keys, List.mem_append, List.mem_cons, hmem₂]
          constructor
          · rintro (hy | rfl | ⟨hy, hyx⟩)
            · exact ⟨Or.inl hy, by have := hbl y hy; omega⟩
            · exact ⟨Or.inr (Or.inl rfl), by omega⟩
            · exact ⟨Or.inr (Or.inr hy), hyx⟩
          · rintro ⟨hy | rfl | hy, hyx⟩
            · exact Or.inl hy
            · exact Or.inr (Or.inl rfl)
            · exact Or.inr (Or.inr ⟨hy, hyx⟩)
        · rw [hkt, if_pos (hxiff.2 hxin)]
          rw [if_pos hxin] at hlen₂
          have hrpos : 0 < (keys r).length :=
            List.length_pos.2 (List.ne_nil_of_mem hxin)
          simp only [keys, List.length_append, List.length_cons, hlen₂]
          omega
        · exact ⟨fun _ => hxiff.2 hxin, fun _ => rfl⟩
      | false =>
        have hreq : r₂ = r := hnoop₂ rfl
        have hxout : x ∉ keys r := fun hc => by simpa using hbiff₂.2 hc
        have hxout' : x ∉ keys (BSTNode.node l r h v) := fun hc => hxout (hxiff.1 hc)
        refine ⟨.node l r h v, false, ?_, hh, hpw, ?_, ?_, ?_, fun _ => rfl⟩
        · simp only [delete_balanced, if_neg hnlt, if_pos hgt, heq,
            Bool.false_eq_true, if_false, hreq]
        · intro y
          constructor
          · intro hy
            refine ⟨hy, ?_⟩
            rintro rfl
            exact hxout' hy
          · exact fun hy => hy.1
        · rw [if_neg hxout']
        · simp only [Bool.false_eq_true, false_iff]
          exact hxout'

/-- On a tree whose in-order sequence is strictly increasing, `contains`
decides membership in the in-order sequence. -/
lemma contains_iff (t : BSTNode) (hpw : (keys t).Pairwise (· < ·)) (x : Int) :
    contains t x = true ↔ x ∈ keys t := by
  induction t with
  | nil => simp [contains, keys]
  | node l r h v ihl ihr =>
    have hpw' := hpw
    simp only [keys, List.pairwise_append, List.pairwise_cons] at hpw'
    obtain ⟨hpwl, ⟨hbr, hpwr⟩, hcr⟩ := hpw'
    have hbl : ∀ a ∈ keys l, a < v := fun a ha => hcr a ha v (List.mem_cons_self v _)
    rcases lt_trichotomy x v with hxv | hxv | hxv
    · have hne : ¬ (x = v) := ne_of_lt hxv
      have hngt : ¬ (x > v) := by omega
      have hc : contains (BSTNode.node l r h v) x = contains l x := by
        simp only [contains, if_neg hne, if_neg hngt]
      rw [hc, ihl hpwl]
      simp only [keys, List.mem_append, List.mem_cons]
      constructor
      · exact Or.inl
      · rintro (hy | rfl | hy)
        · exact hy
        · exact absurd hxv (lt_irrefl x)
        · exact absurd (hbr x hy) (by omega)
    · subst hxv
      simp [contains, keys]
    · have hne : ¬ (x = v) := by omega
      have hc : contains (BSTNode.node l r h v) x = contains r x := by
        simp only [contains, if_neg hne, if_pos hxv]
      rw [hc, ihr hpwr]
      simp only [keys, List.mem_append, List.mem_cons]
      constructor
      · exact fun hy => Or.inr (Or.inr hy)
      · rintro (hy | rfl | hy)
        · exact absurd (hbl x hy) (by omega)
        · exact absurd hxv (lt_irrefl x)
        · exact hy

/-! ### The invariant maintained by the public API -/

/-- Invariant of the tree of every state reachable through the public API:
correct cached heights and a strictly increasing in-order sequence.  (The size
field is tracked separately, since the wrapping `u32` arithmetic relates it to
the node count only while no wrap has occurred.) -/
def Good (b : BST) : Prop :=
  heights_ok b.root = true ∧ (keys b.root).Pairwise (· < ·)

/-- `BST::insert` never panics on a good state, preserves the invariant, and
adds exactly the requested value to the stored set. -/
lemma insert_step (b : BST) (x : Int) (hb : Good b) :
    ∃ b₂ res, BST.insert b x = some (b₂, res) ∧ Good b₂ ∧
      (∀ y, y ∈ keys b₂.root ↔ y ∈ keys b.root ∨ y = x) := by
  obtain ⟨hh, hpw⟩ := hb
  obtain ⟨t₂, res, heq, hok, hpw₂, hmem, hlen, hnoop⟩ := insert_spec x b.root hh hpw
  refine ⟨⟨t₂, if res = true then (b.size + 1) % u32Mod else b.size⟩, res, ?_,
    ⟨hok, hpw₂⟩, hmem⟩
  simp [BST.insert, heq]

/-- `BST::delete` never panics on a good state, preserves the invariant, and
removes exactly the requested value. -/
lemma delete_step (b : BST) (x : Int) (hb : Good b) :
    ∃ b₂ res, BST.delete b x = some (b₂, res) ∧ Good b₂ ∧
      (∀ y, y ∈ keys b₂.root ↔ y ∈ keys b.root ∧ y ≠ x) := by
  obtain ⟨hh, hpw⟩ := hb
  obtain ⟨t₂, res, heq, hok, hpw₂, hmem, hlen, hbiff, hnoop⟩ :=
    delete_spec x b.root hh hpw
  refine ⟨⟨t₂, if res = true then (b.size + (u32Mod - 1)) % u32Mod else b.size⟩,
    res, ?_, ⟨hok, hpw₂⟩, hmem⟩
  simp [BST.delete, heq]

/-- Running any operation sequence from a good state succeeds, ends in a good
state, and the stored set tracks the reference membership semantics. -/
lemma runOps_spec : ∀ (ops : List Op) (b : BST) (m : Int → Bool), Good b →
    (∀ x, x ∈ keys b.root ↔ m x = true) →
    ∃ b₂, runOps b ops = some b₂ ∧ Good b₂ ∧
      (∀ x, x ∈ keys b₂.root ↔ specMember m ops x = true) := by
  intro ops
  induction ops with
  | nil =>
    intro b m hb hm
    exact ⟨b, rfl, hb, hm⟩
  | cons op ops ih =>
    intro b m hb hm
    cases op with
    | ins y =>
      obtain ⟨b₂, res, heq, hb₂, hmem⟩ := insert_step b y hb
      have hm₂ : ∀ x, x ∈ keys b₂.root ↔ (if x = y then true else m x) = true := by
        intro x
        rw [hmem x]
        by_cases hxy : x = y
        · subst hxy
          simp
        · rw [if_neg hxy, ← hm x]
          simp [hxy]
      obtain ⟨b₃, heq₃, hb₃, hm₃⟩ := ih b₂ _ hb₂ hm₂
      refine ⟨b₃, ?_, hb₃, ?_⟩
      · simp only [runOps, runOp, heq, heq₃]
      · intro x
        rw [specMember]
        exact hm₃ x
    | del y =>
      obtain ⟨b₂, res, heq, hb₂, hmem⟩ := delete_step b y hb
      have hm₂ : ∀ x, x ∈ keys b₂.root ↔ (if x = y then false else m x) = true := by
        intro x
        rw [hmem x]
        by_cases hxy : x = y
        · subst hxy
          simp
        · rw [if_neg hxy, ← hm x]
          simp [hxy]
      obtain ⟨b₃, heq₃, hb₃, hm₃⟩ := ih b₂ _ hb₂ hm₂
      refine ⟨b₃, ?_, hb₃, ?_⟩
      · simp only [runOps, runOp, heq, heq₃]
      · intro x
        rw [specMember]
        exact hm₃ x

/-- The empty tree is a good state. -/
lemma good_new : Good BST.new :=
  ⟨rfl, by simp [BST.new, keys]⟩

/-- Every state actually produced by a run of public operations from `new`
satisfies the invariant, and its stored set matches the reference membership
semantics of the history. -/
lemma runOps_new_spec (ops : List Op) (B : BST)
    (h : runOps BST.new ops = some B) :
    Good B ∧ ∀ x, (x ∈ keys B.root ↔ specMember (fun _ => false) ops x = true) := by
  obtain ⟨b₂, heq, hb₂, hm⟩ := runOps_spec ops BST.new (fun _ => false) good_new
    (by simp [BST.new, keys])
  have hbb : B = b₂ := Option.some.inj (h.symm.trans heq)
  subst hbb
  exact ⟨hb₂, hm⟩

/-! ### Claim theorems -/

/-- Operation sequence that drives the tree into an unbalanced state. -/
def opsC1 : List Op :=
  [.ins 4, .ins 2, .ins 10, .ins 0, .ins 19, .ins 16, .ins 17, .ins 20, .ins 18,
   .del 2]

/-- The state produced by `opsC1`; its node 17 has an absent left child
(height -1) and a right child of height 1. -/
def stateC1 : BST :=
  ⟨.node (.node (.node .nil .nil 0 0) (.node .nil .nil 0 10) 1 4)
     (.node .nil (.node (.node .nil .nil 0 18) (.node .nil .nil 0 20) 1 19) 2 17)
     3 16, 8⟩

/-- C1: the public run `opsC1` (nine inserts and one delete starting from
`new()`) ends, after `delete` has returned, in a state whose tree violates the
AVL balance condition even though every cached height is correct: the final
`rebalance` chose a left-right double rotation for a node whose left child was
height-balanced, which leaves a node with subtree height difference 2.  This
refutes the claim that after each public operation every node satisfies the
balance condition. -/
theorem C1_balance_invariant_violated :
    runOps BST.new opsC1 = some stateC1 ∧ heights_ok stateC1.root = true ∧
      balancedTree stateC1.root = false := by
  refine ⟨by decide, by decide, by decide⟩

/-- C2: inserting the value 1, which is already stored (witness: `contains`
returns true), into the reachable state `⟨node (node nil nil 0 1) nil 1 2, 2⟩`
returns `true` and increments the size field to 3 while the node structure is
unchanged — the recursive result of `insert_balanced` is discarded, so only a
duplicate found at the root returns `false`.  This refutes the claim that
inserting an already-present value returns `false` and leaves the size field
unchanged. -/
theorem C2_duplicate_insert_returns_true :
    runOps BST.new [Op.ins 2, Op.ins 1] =
      some ⟨.node (.node .nil .nil 0 1) .nil 1 2, 2⟩ ∧
    contains (.node (.node .nil .nil 0 1) .nil 1 2) 1 = true ∧
    BST.insert ⟨.node (.node .nil .nil 0 1) .nil 1 2, 2⟩ 1 =
      some (⟨.node (.node .nil .nil 0 1) .nil 1 2, 3⟩, true) := by
  refine ⟨by decide, by decide, by decide⟩

/-- Input tree for C3: correct heights, BST-ordered, balance factor
`1 - (-1) = 2`, and the left child's two subtree heights are equal
(`0 = 0`), so the spec's condition `height(left.left) ≥ height(left.right)`
holds and a single right rotation is required. -/
def treeC3 : BSTNode :=
  .node (.node (.node .nil .nil 0 1) (.node .nil .nil 0 3) 1 2) .nil 2 4

/-- C3: on `treeC3` — imbalanced, left-heavy, with the left child's subtree
heights equal so the claimed condition `height(left.left) ≥ height(left.right)`
for a single right rotation holds — `rebalance` instead performs the
left-right double rotation (the code tests the strict `left_heavy` on the
child), producing a different tree than the claimed single right rotation
would.  This refutes the claim that a single right rotation is performed
whenever `height(left.left) ≥ height(left.right)`. -/
theorem C3_rotation_case_selection_wrong :
    heights_ok treeC3 = true ∧ bst_ordered treeC3 = true ∧
    is_imbalanced treeC3 = true ∧ left_heavy treeC3 = true ∧
    left_heavy (.node (.node .nil .nil 0 1) (.node .nil .nil 0 3) 1 2) = false ∧
    get_height (.node .nil .nil 0 1) = get_height (.node .nil .nil 0 3) ∧
    rebalance treeC3 =
      some (.node (.node (.node .nil .nil 0 1) .nil 1 2) (.node .nil .nil 0 4) 2 3) ∧
    rotate_right treeC3 =
      some (.node (.node .nil .nil 0 1) (.node (.node .nil .nil 0 3) .nil 1 4) 2 2) ∧
    rebalance treeC3 ≠ rotate_right treeC3 := by
  refine ⟨by decide, by decide, by decide, by decide, by decide, by decide,
    by decide, by decide, by decide⟩

/-- C4: after any sequence of public operations from `new()`, binary-search
tree order holds, both node-wise and as strict monotonicity of the in-order
traversal. -/
theorem C4_bst_order_invariant (ops : List Op) (B : BST)
    (h : runOps BST.new ops = some B) :
    bst_ordered B.root = true ∧ (keys B.root).Pairwise (· < ·) := by
  obtain ⟨⟨_, hpw⟩, _⟩ := runOps_new_spec ops B h
  exact ⟨(bst_ordered_iff B.root).2 hpw, hpw⟩

theorem C4_witness :
    bst_ordered (BST.mk (.node (.node .nil .nil 0 1) .nil 1 2) 2).root = true ∧
    (keys (BST.mk (.node (.node .nil .nil 0 1) .nil 1 2) 2).root).Pairwise (· < ·) :=
  C4_bst_order_invariant [Op.ins 2, Op.ins 1] _ (by decide)

/-- C5: after the public run `ins 2, ins 1, ins 1` the size field is 3 while
only 2 nodes are reachable from the root (the duplicate insert of 1 returned
`true`, see C2, so `BST::insert` incremented size).  This refutes the claim
that the size field always equals the number of reachable nodes. -/
theorem C5_size_field_diverges_from_node_count :
    runOps BST.new [Op.ins 2, Op.ins 1, Op.ins 1] =
      some ⟨.node (.node .nil .nil 0 1) .nil 1 2, 3⟩ ∧
    nodeCount (.node (.node .nil .nil 0 1) .nil 1 2) = 2 := by
  refine ⟨by decide, by decide⟩

/-- C6: after any sequence of public operations from `new()`, every node's
cached height field equals the recursively defined height of its subtree
(`realHeight`: -1 for an absent child, 0 for a leaf). -/
theorem C6_height_cache_invariant (ops : List Op) (B : BST)
    (h : runOps BST.new ops = some B) :
    heights_ok B.root = true :=
  (runOps_new_spec ops B h).1.1

theorem C6_witness :
    heights_ok (BST.mk (.node (.node .nil .nil 0 1) .nil 1 2) 2).root = true :=
  C6_height_cache_invariant [Op.ins 2, Op.ins 1] _ (by decide)

/-- C7: after any sequence of insert and delete operations from `new()`,
`contains` returns true for exactly the values that were inserted and not
subsequently deleted. -/
theorem C7_contains_matches_history (ops : List Op) (B : BST)
    (h : runOps BST.new ops = some B) (x : Int) :
    BST.contains B x = specMember (fun _ => false) ops x := by
  obtain ⟨⟨_, hpw⟩, hm⟩ := runOps_new_spec ops B h
  have h1 := contains_iff B.root hpw x
  have h2 := hm x
  show contains B.root x = specMember (fun _ => false) ops x
  cases hsm : specMember (fun _ => false) ops x with
  | true => exact h1.2 (h2.2 (by rw [hsm]))
  | false =>
    rw [hsm] at h2
    apply Bool.eq_false_iff.2
    intro hc
    have hmem := h1.1 hc
    simp only [Bool.false_eq_true, iff_false] at h2
    exact h2 hmem

theorem C7_witness :
    BST.contains (BST.mk (.node (.node .nil .nil 0 1) .nil 1 2) 2) 1 =
      specMember (fun _ => false) [Op.ins 2, Op.ins 1] 1 :=
  C7_contains_matches_history [Op.ins 2, Op.ins 1] _ (by decide) 1

/-- C8: deleting a value that is not stored in a state reachable through the
public API (the empty tree included) returns `false` and leaves the state
completely unchanged: same node structure, hence same in-order sequence, and
the same size field. -/
theorem C8_delete_absent_is_noop (ops : List Op) (B : BST)
    (h : runOps BST.new ops = some B) (x : Int) (hx : x ∉ keys B.root) :
    BST.delete B x = some (B, false) := by
  obtain ⟨⟨hh, hpw⟩, _⟩ := runOps_new_spec ops B h
  obtain ⟨t₂, res, heq, _, _, _, _, hbiff, hnoop⟩ := delete_spec x B.root hh hpw
  have hres : res = false := by
    cases res with
    | false => rfl
    | true => exact absurd (hbiff.1 rfl) hx
  subst hres
  have ht : t₂ = B.root := hnoop rfl
  subst ht
  simp [BST.delete, heq]

theorem C8_witness :
    BST.delete (BST.mk (.node (.node .nil .nil 0 1) .nil 1 2) 2) 5 =
      some (BST.mk (.node (.node .nil .nil 0 1) .nil 1 2) 2, false) :=
  C8_delete_absent_is_noop [Op.ins 2, Op.ins 1] _ (by decide) 5 (by decide)

/-- C9: on every state reachable through the public API, `contains`, `insert`
and `delete` are total: `contains` returns a boolean by construction, and
`insert` and `delete` return `some` result — the `none` branches that model
the `panic!` calls in `get_left`, `get_right` and `take_smallest_in_subtree`
are never taken. -/
theorem C9_public_ops_never_panic (ops : List Op) (B : BST)
    (h : runOps BST.new ops = some B) (x : Int) :
    (BST.contains B x = true ∨ BST.contains B x = false) ∧
    (∃ B₂ res, BST.insert B x = some (B₂, res)) ∧
    (∃ B₂ res, BST.delete B x = some (B₂, res)) := by
  have hg := (runOps_new_spec ops B h).1
  obtain ⟨b₂, res, heq, _, _⟩ := insert_step B x hg
  obtain ⟨b₃, res₃, heq₃, _, _⟩ := delete_step B x hg
  refine ⟨?_, ⟨b₂, res, heq⟩, ⟨b₃, res₃, heq₃⟩⟩
  cases BST.contains B x with
  | true => exact Or.inl rfl
  | false => exact Or.inr rfl

theorem C9_witness :
    (BST.contains (BST.mk (.node (.node .nil .nil 0 1) .nil 1 2) 2) 7 = true ∨
      BST.contains (BST.mk (.node (.node .nil .nil 0 1) .nil 1 2) 2) 7 = false) ∧
    (∃ B₂ res, BST.insert (BST.mk (.node (.node .nil .nil 0 1) .nil 1 2) 2) 7 =
      some (B₂, res)) ∧
    (∃ B₂ res, BST.delete (BST.mk (.node (.node .nil .nil 0 1) .nil 1 2) 2) 7 =
      some (B₂, res)) :=
  C9_public_ops_never_panic [Op.ins 2, Op.ins 1] _ (by decide) 7

/-- The 2-node tree `2 with left child 1`; inserting 1 again is the
duplicate-insert bug of C2, which returns `true` and bumps the size without
changing the tree. -/
def dupTree : BSTNode := .node (.node .nil .nil 0 1) .nil 1 2

lemma runOps_cons (b : BST) (op : Op) (ops : List Op) (b₂ : BST)
    (h : runOp b op = some b₂) :
    runOps b (op :: ops) = runOps b₂ ops := by
  simp only [runOps, h]

lemma ins2_new_step :
    runOp BST.new (Op.ins 2) = some ⟨.node .nil .nil 0 2, 1⟩ := by decide

lemma ins1_first_step :
    runOp ⟨.node .nil .nil 0 2, 1⟩ (Op.ins 1) = some ⟨dupTree, 2⟩ := by decide

/-- Inserting the already-present value 1 into `dupTree` leaves the tree alone
but returns `true`, so the size field takes one wrapping increment. -/
lemma ins1_dup_step (s : Nat) :
    BST.insert ⟨dupTree, s⟩ 1 = some (⟨dupTree, (s + 1) % u32Mod⟩, true) := by
  have h : insert_balanced dupTree 1 = some (dupTree, true) := by decide
  simp [BST.insert, h]

/-- Running `k` duplicate inserts of 1 on `dupTree` keeps the tree and adds
`k` to the size field modulo `2 ^ 32`. -/
lemma runOps_replicate_dup : ∀ (k s : Nat), s < u32Mod →
    runOps ⟨dupTree, s⟩ (List.replicate k (Op.ins 1)) =
      some ⟨dupTree, (s + k) % u32Mod⟩ := by
  intro k
  induction k with
  | zero =>
    intro s hs
    rw [List.replicate_zero, Nat.add_zero, Nat.mod_eq_of_lt hs]
    rfl
  | succ k ih =>
    intro s hs
    rw [List.replicate_succ]
    have hMpos : 0 < u32Mod := by norm_num [u32Mod]
    simp only [runOps, runOp, ins1_dup_step s]
    rw [ih ((s + 1) % u32Mod) (Nat.mod_lt _ hMpos), Nat.mod_add_mod]
    have harith : s + 1 + k = s + (k + 1) := by omega
    rw [harith]

/-- An operation sequence of length exactly `2 ^ 32` whose `u32` size counter
wraps back to 0 while two nodes stay reachable: one real insert of 2, one real
insert of 1, and `2 ^ 32 - 2` duplicate inserts of 1 that each increment the
size (the C2 bug) without growing the tree. -/
def opsC10 : List Op :=
  Op.ins 2 :: Op.ins 1 :: List.replicate (u32Mod - 2) (Op.ins 1)

/-- C10, counterexample: after the public run `opsC10` the size field has
wrapped to 0 while `nodeCount` is 2, so the size field is not at least the
number of reachable nodes; moreover `delete 1` on that state returns `true`
with the size field at 0 (not at least 1), and the `u32` decrement wraps
around to `2 ^ 32 - 1`. -/
theorem C10_counterexample :
    runOps BST.new opsC10 = some ⟨dupTree, 0⟩ ∧
    (BST.mk dupTree 0).size < nodeCount (BST.mk dupTree 0).root ∧
    BST.delete ⟨dupTree, 0⟩ 1 = some (⟨.node .nil .nil 0 2, u32Mod - 1⟩, true) ∧
    (BST.mk dupTree 0).size < 1 := by
  refine ⟨?_, by decide, by decide, by decide⟩
  have h2 : (2 : Nat) < u32Mod := by norm_num [u32Mod]
  have hrep := runOps_replicate_dup (u32Mod - 2) 2 h2
  have hsum : 2 + (u32Mod - 2) = u32Mod := by norm_num [u32Mod]
  rw [hsum, Nat.mod_self] at hrep
  calc runOps BST.new opsC10
      = runOps ⟨.node .nil .nil 0 2, 1⟩
          (Op.ins 1 :: List.replicate (u32Mod - 2) (Op.ins 1)) :=
        runOps_cons _ _ _ _ ins2_new_step
    _ = runOps ⟨dupTree, 2⟩ (List.replicate (u32Mod - 2) (Op.ins 1)) :=
        runOps_cons _ _ _ _ ins1_first_step
    _ = some ⟨dupTree, 0⟩ := hrep

/-- Running an operation sequence from a good state whose size field is still
an exact upper bound for the stored-node count, with too few operations left
to make the `u32` size counter wrap, keeps all of that: the size stays at
least the node count and grows by at most one per operation. -/
lemma runOps_size_spec : ∀ (ops : List Op) (b : BST), Good b →
    (keys b.root).length ≤ b.size → b.size + ops.length < u32Mod →
    ∃ b₂, runOps b ops = some b₂ ∧ Good b₂ ∧
      (keys b₂.root).length ≤ b₂.size ∧ b₂.size ≤ b.size + ops.length := by
  intro ops
  induction ops with
  | nil =>
    intro b hb hlen _
    exact ⟨b, rfl, hb, hlen, by omega⟩
  | cons op ops ih =>
    intro b hb hlen hroom
    obtain ⟨hh, hpw⟩ := hb
    have hroom' : b.size + ops.length + 1 < u32Mod := by
      simp only [List.length_cons] at hroom
      omega
    cases op with
    | ins y =>
      obtain ⟨t₂, res, heq, hok, hpw₂, hmem, hlen₂, hnoop⟩ :=
        insert_spec y b.root hh hpw
      cases res with
      | true =>
        have hins : BST.insert b y = some (⟨t₂, (b.size + 1) % u32Mod⟩, true) := by
          simp [BST.insert, heq]
        have hmod : (b.size + 1) % u32Mod = b.size + 1 :=
          Nat.mod_eq_of_lt (by omega)
        have hlen₃ : (keys t₂).length ≤ b.size + 1 := by
          by_cases hyin : y ∈ keys b.root
          · rw [if_pos hyin] at hlen₂
            omega
          · rw [if_neg hyin] at hlen₂
            omega
        obtain ⟨b₃, heq₃, hb₃, hlen₄, hsz₄⟩ := ih ⟨t₂, (b.size + 1) % u32Mod⟩
          ⟨hok, hpw₂⟩ (by dsimp only; rw [hmod]; exact hlen₃)
          (by dsimp only; rw [hmod]; omega)
        refine ⟨b₃, ?_, hb₃, hlen₄, ?_⟩
        · simp only [runOps, runOp, hins, heq₃]
        · simp only [List.length_cons]
          dsimp only at hsz₄
          rw [hmod] at hsz₄
          omega
      | false =>
        have hins : BST.insert b y = some (⟨t₂, b.size⟩, false) := by
          simp [BST.insert, heq]
        have ht : t₂ = b.root := hnoop rfl
        obtain ⟨b₃, heq₃, hb₃, hlen₄, hsz₄⟩ := ih ⟨t₂, b.size⟩
          ⟨hok, hpw₂⟩ (by dsimp only; rw [ht]; exact hlen) (by dsimp only; omega)
        refine ⟨b₃, ?_, hb₃, hlen₄, ?_⟩
        · simp only [runOps, runOp, hins, heq₃]
        · simp only [List.length_cons]
          dsimp only at hsz₄
          omega
    | del y =>
      obtain ⟨t₂, res, heq, hok, hpw₂, hmem, hlen₂, hbiff, hnoop⟩ :=
        delete_spec y b.root hh hpw
      cases res with
      | true =>
        have hdel : BST.delete b y =
            some (⟨t₂, (b.size + (u32Mod - 1)) % u32Mod⟩, true) := by
          simp [BST.delete, heq]
        have hyin : y ∈ keys b.root := hbiff.1 rfl
        have hpos : 0 < (keys b.root).length :=
          List.length_pos.2 (List.ne_nil_of_mem hyin)
        have hMpos : 0 < u32Mod := by norm_num [u32Mod]
        have hsplit : b.size + (u32Mod - 1) = (b.size - 1) + u32Mod := by omega
        have hmod : (b.size + (u32Mod - 1)) % u32Mod = b.size - 1 := by
          rw [hsplit, Nat.add_mod_right]
          exact Nat.mod_eq_of_lt (by omega)
        have hlen₃ : (keys t₂).length ≤ b.size - 1 := by
          rw [if_pos hyin] at hlen₂
          omega
        obtain ⟨b₃, heq₃, hb₃, hlen₄, hsz₄⟩ := ih ⟨t₂, (b.size + (u32Mod - 1)) % u32Mod⟩
          ⟨hok, hpw₂⟩ (by dsimp only; rw [hmod]; exact hlen₃)
          (by dsimp only; rw [hmod]; omega)
        refine ⟨b₃, ?_, hb₃, hlen₄, ?_⟩
        · simp only [runOps, runOp, hdel, heq₃]
        · simp only [List.length_cons]
          dsimp only at hsz₄
          rw [hmod] at hsz₄
          omega
      | false =>
        have hdel : BST.delete b y = some (⟨t₂, b.size⟩, false) := by
          simp [BST.delete, heq]
        have ht : t₂ = b.root := hnoop rfl
        obtain ⟨b₃, heq₃, hb₃, hlen₄, hsz₄⟩ := ih ⟨t₂, b.size⟩
          ⟨hok, hpw₂⟩ (by dsimp only; rw [ht]; exact hlen) (by dsimp only; omega)
        refine ⟨b₃, ?_, hb₃, hlen₄, ?_⟩
        · simp only [runOps, runOp, hdel, heq₃]
        · simp only [List.length_cons]
          dsimp only at hsz₄
          omega

/-- C10, amended: for every tree reachable by a sequence of fewer than
`2 ^ 32` public operations from `new()` (so the `u32` size counter cannot
have wrapped), the size field is at least the number of nodes reachable from
the root, and whenever `delete` returns `true` the size field is at least 1
beforehand, so the decrement `self.size -= 1` does not underflow. -/
theorem C10_size_decrement_safe_before_wrap (ops : List Op) (B : BST)
    (hlen : ops.length < u32Mod) (h : runOps BST.new ops = some B) :
    nodeCount B.root ≤ B.size ∧
    ∀ x B₂, BST.delete B x = some (B₂, true) → 1 ≤ B.size := by
  obtain ⟨b₂, heq, hb₂, hsz, _⟩ := runOps_size_spec ops BST.new good_new
    (by simp [BST.new, keys]) (by simpa [BST.new] using hlen)
  have hbb : B = b₂ := Option.some.inj (h.symm.trans heq)
  subst hbb
  refine ⟨by rw [nodeCount_eq_length]; exact hsz, ?_⟩
  intro x B₂ hdel
  obtain ⟨hh, hpw⟩ := hb₂
  obtain ⟨t₂, res, heqd, _, _, _, _, hbiff, _⟩ := delete_spec x B.root hh hpw
  simp only [BST.delete, heqd] at hdel
  have hres : res = true := congrArg Prod.snd (Option.some.inj hdel)
  have hxin := hbiff.1 hres
  have hpos : 0 < (keys B.root).length :=
    List.length_pos.2 (List.ne_nil_of_mem hxin)
  omega

theorem C10_witness :
    nodeCount (BST.mk dupTree 2).root ≤ (BST.mk dupTree 2).size ∧
    ∀ x B₂, BST.delete (BST.mk dupTree 2) x = some (B₂, true) →
      1 ≤ (BST.mk dupTree 2).size :=
  C10_size_decrement_safe_before_wrap [Op.ins 2, Op.ins 1] _ (by decide) (by decide)

end AvlRs
